import Mathlib

/-!
Verification of the polycloze spaced-repetition core against its
natural-language specification.

The development shallowly embeds:
* the Wilson confidence estimator (Go package `wilson`),
* the client-side review scheduler and interval auto-tuner
  (`api/js/src/srs.ts`; IndexedDB stores are modelled as key-sorted lists),
* the placement estimator (`api/js/src/words.ts`),
* the server-side sync handler (`api/sync.go`),
* the Go review scheduler transaction (`review_scheduler.UpdateReviewAtTx`).

Times are integers (milliseconds on the client, seconds on the Go side);
the floating-point formulas of the confidence estimator are modelled over
ℝ, and the IndexedDB float key comparisons (fractional hours against
integer bucket keys) are carried exactly over ℤ by scaling both sides by
`hour` (exact for the magnitudes the program manipulates).
-/

namespace Polycloze

/-! ## Confidence estimator (Go package `wilson`) -/

/-- Boundary point of a Wilson score interval, from Go `wilson.Wilson`.
Floating-point arithmetic is modelled over the reals; the Go expression is
`(ns+z2/2)/(n+z2) + (z/(n+z2))*math.Sqrt((ns*nf)/n+z2/4)`. -/
noncomputable def Wilson (success fail : ℕ) (z : ℝ) : ℝ :=
  ((success : ℝ) + z * z / 2) / (((success : ℝ) + (fail : ℝ)) + z * z)
    + (z / (((success : ℝ) + (fail : ℝ)) + z * z))
      * Real.sqrt ((success : ℝ) * (fail : ℝ) / ((success : ℝ) + (fail : ℝ)) + z * z / 4)

/-- Go `wilson.IsTooEasy`: the 80%-confidence one-sided lower bound on
accuracy (z = -0.845) exceeds 0.875. -/
def IsTooEasy (correct incorrect : ℕ) : Prop :=
  Wilson correct incorrect (-0.845) > 0.875

/-- Go `wilson.IsTooHard`: the 99.9%-confidence one-sided upper bound on
accuracy (z = 3.1) is below 0.8. -/
def IsTooHard (correct incorrect : ℕ) : Prop :=
  Wilson correct incorrect 3.1 < 0.8

/-- Core inequality behind the Wilson bracketing: the z-discounted distance
of `x` from the midpoint `n / 2` is dominated by the square-root term `S`. -/
theorem sqrt_dominates (x n z S : ℝ) (hx : 0 ≤ x) (hxn : x ≤ n) (hn : 0 < n)
    (hz : 0 ≤ z) (hS0 : 0 ≤ S)
    (hsq : n * (S * S) = x * (n - x) + n * (z * z) / 4) :
    z * z * (x - n / 2) ≤ n * z * S := by
  rcases le_or_lt x (n / 2) with h | h
  · have h1 : z * z * (x - n / 2) ≤ 0 :=
      mul_nonpos_of_nonneg_of_nonpos (mul_self_nonneg z) (by linarith)
    have h2 : 0 ≤ n * z * S := mul_nonneg (mul_nonneg hn.le hz) hS0
    linarith
  · have ha : 0 ≤ z * z * (x - n / 2) :=
      mul_nonneg (mul_self_nonneg z) (by linarith)
    have hb : 0 ≤ n * z * S := mul_nonneg (mul_nonneg hn.le hz) hS0
    have hsqle : (z * z * (x - n / 2)) * (z * z * (x - n / 2)) ≤
        (n * z * S) * (n * z * S) := by
      have hb2 : (n * z * S) * (n * z * S) = (z * z) * (n * (n * (S * S))) := by
        ring
      rw [hb2, hsq]
      nlinarith [mul_nonneg (mul_nonneg hx (by linarith : (0:ℝ) ≤ n - x))
          (mul_self_nonneg z),
        mul_nonneg (mul_nonneg (mul_nonneg hn.le hx)
          (by linarith : (0:ℝ) ≤ n - x)) (mul_self_nonneg z),
        mul_nonneg (mul_nonneg hx (by linarith : (0:ℝ) ≤ n - x))
          (mul_nonneg (mul_self_nonneg z) (mul_self_nonneg z))]
    nlinarith [hsqle, ha, hb,
      sq_nonneg (z * z * (x - n / 2) + n * z * S),
      sq_nonneg (z * z * (x - n / 2) - n * z * S)]

/-- Lower half of the bracketing: the Wilson point at `-z` is at most the
observed proportion, for a positive sample and `z ≥ 0`. -/
theorem wilson_neg_le (s f : ℕ) (z : ℝ) (hz : 0 ≤ z)
    (hn : 0 < (s : ℝ) + (f : ℝ)) :
    Wilson s f (-z) ≤ (s : ℝ) / ((s : ℝ) + (f : ℝ)) := by
  have hns : (0:ℝ) ≤ (s : ℝ) := Nat.cast_nonneg s
  have hnf : (0:ℝ) ≤ (f : ℝ) := Nat.cast_nonneg f
  have hn0 : ((s : ℝ) + (f : ℝ)) ≠ 0 := ne_of_gt hn
  have hz2 : 0 < ((s : ℝ) + (f : ℝ)) + z * z := by nlinarith [mul_self_nonneg z]
  have hA : 0 ≤ (s : ℝ) * (f : ℝ) / ((s : ℝ) + (f : ℝ)) + z * z / 4 :=
    add_nonneg (div_nonneg (mul_nonneg hns hnf) hn.le) (by positivity)
  have hS0 := Real.sqrt_nonneg
    ((s : ℝ) * (f : ℝ) / ((s : ℝ) + (f : ℝ)) + z * z / 4)
  have hsq : ((s : ℝ) + (f : ℝ)) *
      (Real.sqrt ((s : ℝ) * (f : ℝ) / ((s : ℝ) + (f : ℝ)) + z * z / 4) *
        Real.sqrt ((s : ℝ) * (f : ℝ) / ((s : ℝ) + (f : ℝ)) + z * z / 4)) =
      (f : ℝ) * (((s : ℝ) + (f : ℝ)) - (f : ℝ)) +
        ((s : ℝ) + (f : ℝ)) * (z * z) / 4 := by
    rw [Real.mul_self_sqrt hA]
    field_simp
    ring
  have key := sqrt_dominates (f : ℝ) ((s : ℝ) + (f : ℝ)) z
    (Real.sqrt ((s : ℝ) * (f : ℝ) / ((s : ℝ) + (f : ℝ)) + z * z / 4))
    hnf (by linarith) hn hz hS0 hsq
  have expand : Wilson s f (-z) =
      ((s : ℝ) + z * z / 2 -
        z * Real.sqrt ((s : ℝ) * (f : ℝ) / ((s : ℝ) + (f : ℝ)) + z * z / 4)) /
        (((s : ℝ) + (f : ℝ)) + z * z) := by
    unfold Wilson
    simp only [neg_mul_neg]
    ring
  rw [expand, div_le_div_iff hz2 hn]
  nlinarith [key]

/-- Upper half of the bracketing: the observed proportion is at most the
Wilson point at `z`, for a positive sample and `z ≥ 0`. -/
theorem sr_le_wilson (s f : ℕ) (z : ℝ) (hz : 0 ≤ z)
    (hn : 0 < (s : ℝ) + (f : ℝ)) :
    (s : ℝ) / ((s : ℝ) + (f : ℝ)) ≤ Wilson s f z := by
  have hns : (0:ℝ) ≤ (s : ℝ) := Nat.cast_nonneg s
  have hnf : (0:ℝ) ≤ (f : ℝ) := Nat.cast_nonneg f
  have hn0 : ((s : ℝ) + (f : ℝ)) ≠ 0 := ne_of_gt hn
  have hz2 : 0 < ((s : ℝ) + (f : ℝ)) + z * z := by nlinarith [mul_self_nonneg z]
  have hA : 0 ≤ (s : ℝ) * (f : ℝ) / ((s : ℝ) + (f : ℝ)) + z * z / 4 :=
    add_nonneg (div_nonneg (mul_nonneg hns hnf) hn.le) (by positivity)
  have hS0 := Real.sqrt_nonneg
    ((s : ℝ) * (f : ℝ) / ((s : ℝ) + (f : ℝ)) + z * z / 4)
  have hsq : ((s : ℝ) + (f : ℝ)) *
      (Real.sqrt ((s : ℝ) * (f : ℝ) / ((s : ℝ) + (f : ℝ)) + z * z / 4) *
        Real.sqrt ((s : ℝ) * (f : ℝ) / ((s : ℝ) + (f : ℝ)) + z * z / 4)) =
      (s : ℝ) * (((s : ℝ) + (f : ℝ)) - (s : ℝ)) +
        ((s : ℝ) + (f : ℝ)) * (z * z) / 4 := by
    rw [Real.mul_self_sqrt hA]
    field_simp
    ring
  have key := sqrt_dominates (s : ℝ) ((s : ℝ) + (f : ℝ)) z
    (Real.sqrt ((s : ℝ) * (f : ℝ) / ((s : ℝ) + (f : ℝ)) + z * z / 4))
    hns (by linarith) hn hz hS0 hsq
  have expand : Wilson s f z =
      ((s : ℝ) + z * z / 2 +
        z * Real.sqrt ((s : ℝ) * (f : ℝ) / ((s : ℝ) + (f : ℝ)) + z * z / 4)) /
        (((s : ℝ) + (f : ℝ)) + z * z) := by
    unfold Wilson
    ring
  rw [expand, div_le_div_iff hn hz2]
  nlinarith [key]

/-- At a zero sample the modelled 80% lower bound evaluates to 0. -/
theorem wilson_zero_neg : Wilson 0 0 (-0.845) = 0 := by
  have h1 : Real.sqrt ((0:ℝ) * 0 / (0 + 0) + (-0.845) * (-0.845) / 4)
      = 0.4225 := by
    rw [show ((0:ℝ) * 0 / (0 + 0) + (-0.845) * (-0.845) / 4)
        = (0.4225 : ℝ) ^ 2 by norm_num]
    exact Real.sqrt_sq (by norm_num)
  unfold Wilson
  simp only [Nat.cast_zero]
  rw [h1]
  norm_num

/-- At a zero sample the modelled 99.9% upper bound evaluates to 1. -/
theorem wilson_zero_pos : Wilson 0 0 3.1 = 1 := by
  have h1 : Real.sqrt ((0:ℝ) * 0 / (0 + 0) + 3.1 * 3.1 / 4) = 1.55 := by
    rw [show ((0:ℝ) * 0 / (0 + 0) + 3.1 * 3.1 / 4) = (1.55 : ℝ) ^ 2 by norm_num]
    exact Real.sqrt_sq (by norm_num)
  unfold Wilson
  simp only [Nat.cast_zero]
  rw [h1]
  norm_num

/-- C8: for every pair of non-negative integers `(correct, incorrect)`,
`IsTooEasy` and `IsTooHard` are never both true: the 80% lower bound and the
99.9% upper bound bracket the observed proportion, and 0.875 > 0.8. -/
theorem isTooEasy_isTooHard_never_both (correct incorrect : ℕ) :
    ¬ (IsTooEasy correct incorrect ∧ IsTooHard correct incorrect) := by
  rintro ⟨hE, hH⟩
  unfold IsTooEasy at hE
  unfold IsTooHard at hH
  rcases Nat.eq_zero_or_pos (correct + incorrect) with h0 | hpos
  · have hc : correct = 0 := by omega
    have hi : incorrect = 0 := by omega
    subst hc
    subst hi
    rw [wilson_zero_neg] at hE
    norm_num at hE
  · have hn : (0:ℝ) < (correct : ℝ) + (incorrect : ℝ) := by
      have h2 : (0:ℝ) < ((correct + incorrect : ℕ) : ℝ) := by exact_mod_cast hpos
      push_cast at h2
      linarith
    have h1 := wilson_neg_le correct incorrect 0.845 (by norm_num) hn
    have h2 := sr_le_wilson correct incorrect 3.1 (by norm_num) hn
    rw [show ((-0.845 : ℝ)) = -(0.845 : ℝ) by norm_num] at hE
    linarith

/-- C9 (helper): at a zero sample both real-model predicates are false. -/
theorem zero_sample_prop_false : ¬ IsTooEasy 0 0 ∧ ¬ IsTooHard 0 0 := by
  constructor
  · unfold IsTooEasy
    rw [wilson_zero_neg]
    norm_num
  · unfold IsTooHard
    rw [wilson_zero_pos]
    norm_num

/-! ## Client-side confidence predicates

The client `wilson.ts` is not among the provided sources; only its callers
(`srs.ts`, `words.ts`) are.  The spec fixes the same formulas and thresholds
as the Go package.  To keep the scheduler executable the predicates are
given in an equivalent division-free decidable form over ℤ. -/

/-- Modelled from the spec: client `wilson.ts` `isTooEasy` — true when the
80%-confidence one-sided lower Wilson bound (z = -0.845) on accuracy
exceeds 0.875.  Division-free integer form: with `n = correct + incorrect`
and `a = z² = 0.714025`, the bound condition `lower > 0.875` rationalises
to `n > 0 ∧ L > 0 ∧ n·L² > a·(correct·incorrect + n·a/4)` where
`L = correct - 0.875·n - 0.375·a`; scaling `L` by `8·10⁶`
(`L' = 8000000·correct - 7000000·n - 3·714025`) and the product inequality
by `64·10¹²` gives the integer test below. -/
def isTooEasy (correct incorrect : ℕ) : Bool :=
  let n : ℤ := (correct : ℤ) + (incorrect : ℤ)
  let L : ℤ := 8000000 * (correct : ℤ) - 7000000 * n - 2142075
  decide (0 < n) && decide (0 < L) &&
    decide (64000000 * 714025 * ((correct : ℤ) * (incorrect : ℤ))
      + 16 * (714025 * 714025) * n < n * (L * L))

/-- Modelled from the spec: client `wilson.ts` `isTooHard` — true when the
99.9%-confidence one-sided upper Wilson bound (z = 3.1) on accuracy is
below 0.8.  Division-free integer form: with `n = correct + incorrect` and
`b = z² = 9.61`, the bound condition `upper < 0.8` rationalises to
`n > 0 ∧ M > 0 ∧ n·M² > b·(correct·incorrect) + (b²/4)·n` where
`M = 0.8·n - correct + 0.3·b`; scaling `M` by `10³`
(`M' = 800·n - 1000·correct + 2883`) and the product inequality by `10⁶`
gives the integer test below. -/
def isTooHard (correct incorrect : ℕ) : Bool :=
  let n : ℤ := (correct : ℤ) + (incorrect : ℤ)
  let M : ℤ := 800 * n - 1000 * (correct : ℤ) + 2883
  decide (0 < n) && decide (0 < M) &&
    decide (9610000 * ((correct : ℤ) * (incorrect : ℤ)) + 25 * (961 * 961) * n
      < n * (M * M))

/-- C9: at a zero sample (`successes + failures == 0`) the Wilson lower
bound is 0, and both the Go predicates and the client predicates evaluate
to false, so a zero-sample bucket is treated as neither too easy nor too
hard. -/
theorem zero_sample_neither_easy_nor_hard :
    Wilson 0 0 (-0.845) = 0 ∧ (¬ IsTooEasy 0 0 ∧ ¬ IsTooHard 0 0) ∧
      isTooEasy 0 0 = false ∧ isTooHard 0 0 = false :=
  ⟨wilson_zero_neg, zero_sample_prop_false, by decide, by decide⟩

/-- Unconditional expansion of the Wilson point at a negated z-score. -/
theorem wilson_neg_eq (s f : ℕ) (z : ℝ) :
    Wilson s f (-z) =
      ((s : ℝ) + z * z / 2 -
        z * Real.sqrt ((s : ℝ) * (f : ℝ) / ((s : ℝ) + (f : ℝ)) + z * z / 4)) /
        (((s : ℝ) + (f : ℝ)) + z * z) := by
  unfold Wilson
  simp only [neg_mul_neg]
  ring

/-- A nonnegative quantity is below a bound exactly when the bound is
positive and the squares compare. -/
theorem lt_of_sq_bound (X L : ℝ) (hX : 0 ≤ X) :
    X < L ↔ (0 < L ∧ X * X < L * L) := by
  constructor
  · intro h
    have hL : 0 < L := lt_of_le_of_lt hX h
    exact ⟨hL, by nlinarith⟩
  · rintro ⟨hL, hsq⟩
    nlinarith [hX, hL, hsq]

/-- The division-free integer form of `isTooEasy` agrees with the
real-valued Wilson condition of the Go `IsTooEasy` on every input. -/
theorem isTooEasy_iff (c i : ℕ) : isTooEasy c i = true ↔ IsTooEasy c i := by
  rcases Nat.eq_zero_or_pos (c + i) with h0 | hpos
  · have hc : c = 0 := by omega
    have hi : i = 0 := by omega
    subst hc
    subst hi
    simp only [show isTooEasy 0 0 = false from by decide, Bool.false_eq_true,
      false_iff]
    intro h
    unfold IsTooEasy at h
    rw [wilson_zero_neg] at h
    norm_num at h
  · have hposZ : (0:ℤ) < (c : ℤ) + (i : ℤ) := by exact_mod_cast hpos
    have hn : (0:ℝ) < (c : ℝ) + (i : ℝ) := by
      have h2 : (0:ℝ) < ((c + i : ℕ) : ℝ) := by exact_mod_cast hpos
      push_cast at h2
      linarith
    have hn0 : ((c : ℝ) + (i : ℝ)) ≠ 0 := ne_of_gt hn
    have hz2 : (0:ℝ) < ((c : ℝ) + (i : ℝ)) + 0.845 * 0.845 := by nlinarith
    have hA : (0:ℝ) ≤ (c : ℝ) * (i : ℝ) / ((c : ℝ) + (i : ℝ)) + 0.845 * 0.845 / 4 :=
      add_nonneg (div_nonneg (by positivity) hn.le) (by norm_num)
    have hS0 := Real.sqrt_nonneg
      ((c : ℝ) * (i : ℝ) / ((c : ℝ) + (i : ℝ)) + 0.845 * 0.845 / 4)
    have hSS := Real.mul_self_sqrt hA
    have step1 : IsTooEasy c i ↔
        0.845 * Real.sqrt ((c : ℝ) * (i : ℝ) / ((c : ℝ) + (i : ℝ)) + 0.845 * 0.845 / 4)
          < (c : ℝ) - 0.875 * ((c : ℝ) + (i : ℝ)) - 0.375 * (0.845 * 0.845) := by
      unfold IsTooEasy
      rw [show ((-0.845 : ℝ)) = -(0.845 : ℝ) by norm_num, wilson_neg_eq c i 0.845,
        gt_iff_lt, lt_div_iff hz2]
      constructor <;> intro h <;> nlinarith [h]
    have step2 := lt_of_sq_bound
      (0.845 * Real.sqrt ((c : ℝ) * (i : ℝ) / ((c : ℝ) + (i : ℝ)) + 0.845 * 0.845 / 4))
      ((c : ℝ) - 0.875 * ((c : ℝ) + (i : ℝ)) - 0.375 * (0.845 * 0.845))
      (mul_nonneg (by norm_num) hS0)
    have e1 : (0.845 * Real.sqrt ((c : ℝ) * (i : ℝ) / ((c : ℝ) + (i : ℝ)) + 0.845 * 0.845 / 4))
        * (0.845 * Real.sqrt ((c : ℝ) * (i : ℝ) / ((c : ℝ) + (i : ℝ)) + 0.845 * 0.845 / 4))
        = 0.714025 * ((c : ℝ) * (i : ℝ) / ((c : ℝ) + (i : ℝ)) + 0.845 * 0.845 / 4) := by
      have e0 : (0.845 * Real.sqrt ((c : ℝ) * (i : ℝ) / ((c : ℝ) + (i : ℝ)) + 0.845 * 0.845 / 4))
          * (0.845 * Real.sqrt ((c : ℝ) * (i : ℝ) / ((c : ℝ) + (i : ℝ)) + 0.845 * 0.845 / 4))
          = 0.714025 * (Real.sqrt ((c : ℝ) * (i : ℝ) / ((c : ℝ) + (i : ℝ)) + 0.845 * 0.845 / 4)
            * Real.sqrt ((c : ℝ) * (i : ℝ) / ((c : ℝ) + (i : ℝ)) + 0.845 * 0.845 / 4)) := by
        ring
      rw [e0, hSS]
    have step3 : (0:ℝ) < (c : ℝ) - 0.875 * ((c : ℝ) + (i : ℝ)) - 0.375 * (0.845 * 0.845) ↔
        (0:ℤ) < 8000000 * (c : ℤ) - 7000000 * ((c : ℤ) + (i : ℤ)) - 2142075 := by
      rw [show ((0:ℤ) < 8000000 * (c : ℤ) - 7000000 * ((c : ℤ) + (i : ℤ)) - 2142075) ↔
          (((0:ℤ) : ℝ) < ((8000000 * (c : ℤ) - 7000000 * ((c : ℤ) + (i : ℤ)) - 2142075 : ℤ) : ℝ))
          from Int.cast_lt.symm]
      push_cast
      constructor <;> intro h <;> nlinarith [h]
    have step4 : 0.714025 * ((c : ℝ) * (i : ℝ) / ((c : ℝ) + (i : ℝ)) + 0.845 * 0.845 / 4) <
        ((c : ℝ) - 0.875 * ((c : ℝ) + (i : ℝ)) - 0.375 * (0.845 * 0.845)) *
          ((c : ℝ) - 0.875 * ((c : ℝ) + (i : ℝ)) - 0.375 * (0.845 * 0.845)) ↔
        64000000 * 714025 * ((c : ℤ) * (i : ℤ)) + 16 * (714025 * 714025) * ((c : ℤ) + (i : ℤ))
          < ((c : ℤ) + (i : ℤ)) * ((8000000 * (c : ℤ) - 7000000 * ((c : ℤ) + (i : ℤ)) - 2142075)
            * (8000000 * (c : ℤ) - 7000000 * ((c : ℤ) + (i : ℤ)) - 2142075)) := by
      rw [show (64000000 * 714025 * ((c : ℤ) * (i : ℤ)) + 16 * (714025 * 714025) * ((c : ℤ) + (i : ℤ))
          < ((c : ℤ) + (i : ℤ)) * ((8000000 * (c : ℤ) - 7000000 * ((c : ℤ) + (i : ℤ)) - 2142075)
            * (8000000 * (c : ℤ) - 7000000 * ((c : ℤ) + (i : ℤ)) - 2142075))) ↔
          (((64000000 * 714025 * ((c : ℤ) * (i : ℤ)) + 16 * (714025 * 714025) * ((c : ℤ) + (i : ℤ)) : ℤ) : ℝ)
            < ((((c : ℤ) + (i : ℤ)) * ((8000000 * (c : ℤ) - 7000000 * ((c : ℤ) + (i : ℤ)) - 2142075)
              * (8000000 * (c : ℤ) - 7000000 * ((c : ℤ) + (i : ℤ)) - 2142075)) : ℤ) : ℝ))
          from Int.cast_lt.symm]
      push_cast
      rw [← mul_lt_mul_left (show (0:ℝ) < 64000000000000 * ((c : ℝ) + (i : ℝ)) by positivity)]
      constructor <;> intro h <;> nlinarith [h, mul_pos hn hn,
        (div_mul_cancel₀ ((c : ℝ) * (i : ℝ)) hn0 :
          (c : ℝ) * (i : ℝ) / ((c : ℝ) + (i : ℝ)) * ((c : ℝ) + (i : ℝ)) = (c : ℝ) * (i : ℝ))]
    unfold isTooEasy
    simp only [Bool.and_eq_true, decide_eq_true_eq]
    rw [step1, step2, e1, step4, step3]
    constructor
    · rintro ⟨⟨-, h1⟩, h2⟩
      exact ⟨h1, h2⟩
    · rintro ⟨h1, h2⟩
      exact ⟨⟨hposZ, h1⟩, h2⟩

/-- Unconditional expansion of the Wilson point over a common denominator. -/
theorem wilson_pos_eq (s f : ℕ) (z : ℝ) :
    Wilson s f z =
      ((s : ℝ) + z * z / 2 +
        z * Real.sqrt ((s : ℝ) * (f : ℝ) / ((s : ℝ) + (f : ℝ)) + z * z / 4)) /
        (((s : ℝ) + (f : ℝ)) + z * z) := by
  unfold Wilson
  ring

/-- The division-free integer form of `isTooHard` agrees with the
real-valued Wilson condition of the Go `IsTooHard` on every input. -/
theorem isTooHard_iff (c i : ℕ) : isTooHard c i = true ↔ IsTooHard c i := by
  rcases Nat.eq_zero_or_pos (c + i) with h0 | hpos
  · have hc : c = 0 := by omega
    have hi : i = 0 := by omega
    subst hc
    subst hi
    simp only [show isTooHard 0 0 = false from by decide, Bool.false_eq_true,
      false_iff]
    intro h
    unfold IsTooHard at h
    rw [wilson_zero_pos] at h
    norm_num at h
  · have hposZ : (0:ℤ) < (c : ℤ) + (i : ℤ) := by exact_mod_cast hpos
    have hn : (0:ℝ) < (c : ℝ) + (i : ℝ) := by
      have h2 : (0:ℝ) < ((c + i : ℕ) : ℝ) := by exact_mod_cast hpos
      push_cast at h2
      linarith
    have hn0 : ((c : ℝ) + (i : ℝ)) ≠ 0 := ne_of_gt hn
    have hz2 : (0:ℝ) < ((c : ℝ) + (i : ℝ)) + 3.1 * 3.1 := by nlinarith
    have hA : (0:ℝ) ≤ (c : ℝ) * (i : ℝ) / ((c : ℝ) + (i : ℝ)) + 3.1 * 3.1 / 4 :=
      add_nonneg (div_nonneg (by positivity) hn.le) (by norm_num)
    have hS0 := Real.sqrt_nonneg
      ((c : ℝ) * (i : ℝ) / ((c : ℝ) + (i : ℝ)) + 3.1 * 3.1 / 4)
    have hSS := Real.mul_self_sqrt hA
    have step1 : IsTooHard c i ↔
        3.1 * Real.sqrt ((c : ℝ) * (i : ℝ) / ((c : ℝ) + (i : ℝ)) + 3.1 * 3.1 / 4)
          < 0.8 * ((c : ℝ) + (i : ℝ)) - (c : ℝ) + 0.3 * (3.1 * 3.1) := by
      unfold IsTooHard
      rw [wilson_pos_eq c i 3.1, div_lt_iff hz2]
      constructor <;> intro h <;> nlinarith [h]
    have step2 := lt_of_sq_bound
      (3.1 * Real.sqrt ((c : ℝ) * (i : ℝ) / ((c : ℝ) + (i : ℝ)) + 3.1 * 3.1 / 4))
      (0.8 * ((c : ℝ) + (i : ℝ)) - (c : ℝ) + 0.3 * (3.1 * 3.1))
      (mul_nonneg (by norm_num) hS0)
    have e1 : (3.1 * Real.sqrt ((c : ℝ) * (i : ℝ) / ((c : ℝ) + (i : ℝ)) + 3.1 * 3.1 / 4))
        * (3.1 * Real.sqrt ((c : ℝ) * (i : ℝ) / ((c : ℝ) + (i : ℝ)) + 3.1 * 3.1 / 4))
        = 9.61 * ((c : ℝ) * (i : ℝ) / ((c : ℝ) + (i : ℝ)) + 3.1 * 3.1 / 4) := by
      have e0 : (3.1 * Real.sqrt ((c : ℝ) * (i : ℝ) / ((c : ℝ) + (i : ℝ)) + 3.1 * 3.1 / 4))
          * (3.1 * Real.sqrt ((c : ℝ) * (i : ℝ) / ((c : ℝ) + (i : ℝ)) + 3.1 * 3.1 / 4))
          = 9.61 * (Real.sqrt ((c : ℝ) * (i : ℝ) / ((c : ℝ) + (i : ℝ)) + 3.1 * 3.1 / 4)
            * Real.sqrt ((c : ℝ) * (i : ℝ) / ((c : ℝ) + (i : ℝ)) + 3.1 * 3.1 / 4)) := by
        ring
      rw [e0, hSS]
    have step3 : (0:ℝ) < 0.8 * ((c : ℝ) + (i : ℝ)) - (c : ℝ) + 0.3 * (3.1 * 3.1) ↔
        (0:ℤ) < 800 * ((c : ℤ) + (i : ℤ)) - 1000 * (c : ℤ) + 2883 := by
      rw [show ((0:ℤ) < 800 * ((c : ℤ) + (i : ℤ)) - 1000 * (c : ℤ) + 2883) ↔
          (((0:ℤ) : ℝ) < ((800 * ((c : ℤ) + (i : ℤ)) - 1000 * (c : ℤ) + 2883 : ℤ) : ℝ))
          from Int.cast_lt.symm]
      push_cast
      constructor <;> intro h <;> nlinarith [h]
    have step4 : 9.61 * ((c : ℝ) * (i : ℝ) / ((c : ℝ) + (i : ℝ)) + 3.1 * 3.1 / 4) <
        (0.8 * ((c : ℝ) + (i : ℝ)) - (c : ℝ) + 0.3 * (3.1 * 3.1)) *
          (0.8 * ((c : ℝ) + (i : ℝ)) - (c : ℝ) + 0.3 * (3.1 * 3.1)) ↔
        9610000 * ((c : ℤ) * (i : ℤ)) + 25 * (961 * 961) * ((c : ℤ) + (i : ℤ))
          < ((c : ℤ) + (i : ℤ)) * ((800 * ((c : ℤ) + (i : ℤ)) - 1000 * (c : ℤ) + 2883)
            * (800 * ((c : ℤ) + (i : ℤ)) - 1000 * (c : ℤ) + 2883)) := by
      rw [show (9610000 * ((c : ℤ) * (i : ℤ)) + 25 * (961 * 961) * ((c : ℤ) + (i : ℤ))
          < ((c : ℤ) + (i : ℤ)) * ((800 * ((c : ℤ) + (i : ℤ)) - 1000 * (c : ℤ) + 2883)
            * (800 * ((c : ℤ) + (i : ℤ)) - 1000 * (c : ℤ) + 2883))) ↔
          (((9610000 * ((c : ℤ) * (i : ℤ)) + 25 * (961 * 961) * ((c : ℤ) + (i : ℤ)) : ℤ) : ℝ)
            < ((((c : ℤ) + (i : ℤ)) * ((800 * ((c : ℤ) + (i : ℤ)) - 1000 * (c : ℤ) + 2883)
              * (800 * ((c : ℤ) + (i : ℤ)) - 1000 * (c : ℤ) + 2883)) : ℤ) : ℝ))
          from Int.cast_lt.symm]
      push_cast
      rw [← mul_lt_mul_left (show (0:ℝ) < 1000000 * ((c : ℝ) + (i : ℝ)) by positivity)]
      constructor <;> intro h <;> nlinarith [h, mul_pos hn hn,
        (div_mul_cancel₀ ((c : ℝ) * (i : ℝ)) hn0 :
          (c : ℝ) * (i : ℝ) / ((c : ℝ) + (i : ℝ)) * ((c : ℝ) + (i : ℝ)) = (c : ℝ) * (i : ℝ))]
    unfold isTooHard
    simp only [Bool.and_eq_true, decide_eq_true_eq]
    rw [step1, step2, e1, step4, step3]
    constructor
    · rintro ⟨⟨-, h1⟩, h2⟩
      exact ⟨h1, h2⟩
    · rintro ⟨h1, h2⟩
      exact ⟨⟨hposZ, h1⟩, h2⟩

/-! ## Client review scheduler (`api/js/src/srs.ts`)

IndexedDB object stores iterate in ascending key order; each store is
modelled as a list held in that order.  Dates are milliseconds since the
epoch (`Date.getTime()`); interval keys are hours. -/

namespace Srs

/-- One `interval-stats` row: `{interval (key, hours), correct, incorrect}`. -/
structure IntervalStatsValue where
  interval : ℕ
  correct : ℕ
  incorrect : ℕ
deriving DecidableEq, Repr

/-- One reviews row: `{word (key), learned, reviewed, interval, due,
sequenceNumber}`; `learned`, `reviewed`, `due` in milliseconds. -/
structure ReviewsValue where
  word : String
  learned : ℕ
  reviewed : ℕ
  interval : ℕ
  due : ℕ
  sequenceNumber : ℕ
deriving DecidableEq, Repr

/-- One hour in milliseconds (`const hour = 1000 * 60 * 60`). -/
def hour : ℕ := 3600000

/-- IndexedDB `store.get(k)` on the interval-stats store. -/
def getStat (s : List IntervalStatsValue) (k : ℕ) : Option IntervalStatsValue :=
  s.find? (fun v => v.interval == k)

/-- IndexedDB `store.add(v)` on the interval-stats store: insert at the key
position (the program only adds fresh keys). -/
def addStat (v : IntervalStatsValue) :
    List IntervalStatsValue → List IntervalStatsValue
  | [] => [v]
  | w :: rest =>
    if v.interval < w.interval then v :: w :: rest
    else w :: addStat v rest

/-- IndexedDB `store.delete(k)` on the interval-stats store. -/
def deleteStat (s : List IntervalStatsValue) (k : ℕ) : List IntervalStatsValue :=
  s.filter (fun v => v.interval != k)

/-- `updateIntervalStats` (srs.ts): fetch the bucket at `interval`; if
absent do nothing, otherwise bump its correct/incorrect counter and `put`
it back (modelled as in-place replacement at the key). -/
def updateIntervalStats (s : List IntervalStatsValue) (interval : ℕ)
    (correct : Bool) : List IntervalStatsValue :=
  match getStat s interval with
  | none => s
  | some _ =>
    s.map (fun v =>
      if v.interval == interval then
        if correct then { v with correct := v.correct + 1 }
        else { v with incorrect := v.incorrect + 1 }
      else v)

/-- `nextInterval` (srs.ts): ascending cursor over keys strictly above the
query (`IDBKeyRange.lowerBound(interval, true)`), i.e. the smallest key
`> interval`; with `require`, falls back to a descending cursor over keys
`≥ interval`, i.e. the largest such key.  Dereferencing the fallback
cursor when it is null (no key `≥ interval` at all) throws in the source
and is modelled as `none`.  The query is a number of hours that may be
fractional (`delta / hour`); it is carried exactly as `intervalMs`
milliseconds, and the key comparison `interval < key` is the equivalent
`intervalMs < key * hour` (`hour > 0`). -/
def nextInterval (s : List IntervalStatsValue) (intervalMs : ℤ)
    (require : Bool) : Option IntervalStatsValue :=
  match s.find? (fun v => decide (intervalMs < (v.interval : ℤ) * (hour : ℤ))) with
  | some v => some v
  | none =>
    if require then
      (s.filter (fun v => decide (intervalMs ≤ (v.interval : ℤ) * (hour : ℤ)))).getLast?
    else none

/-- `previousInterval` (srs.ts): descending cursor over keys strictly below
the query, i.e. the largest key `< interval`; with `require`, falls back
to an ascending cursor over keys `≤ interval` (null dereference modelled as
`none`).  The query is scaled to milliseconds exactly as in
`nextInterval`. -/
def previousInterval (s : List IntervalStatsValue) (intervalMs : ℤ)
    (require : Bool) : Option IntervalStatsValue :=
  match (s.filter (fun v => decide ((v.interval : ℤ) * (hour : ℤ) < intervalMs))).getLast? with
  | some v => some v
  | none =>
    if require then s.find? (fun v => decide ((v.interval : ℤ) * (hour : ℤ) ≤ intervalMs))
    else none

/-- `getSequenceNumber` (srs.ts): increment the stored counter and return
it; the pair is (returned number, new counter state). -/
def getSequenceNumber (seq : ℕ) : ℕ × ℕ := (seq + 1, seq + 1)

/-- `nextReview` (srs.ts).  Branches: no previous review (24h/0h), incorrect
(reset), crammed (`now < previous.due`; interval kept), and the regular
case, which asks `nextInterval` for the bucket strictly above the elapsed
time `((now - previous.reviewed) / hour)` with `require = true`.  The
`none` result models the TypeError thrown when that cursor is null. -/
def nextReview (intervalStats : List IntervalStatsValue) (seq : ℕ)
    (word : String) (previous : Option ReviewsValue) (correct : Bool)
    (now : ℕ) : Option (ReviewsValue × ℕ) :=
  match previous with
  | none =>
    let interval : ℕ := if correct then 24 else 0
    some ({ word, learned := now, reviewed := now, interval,
            due := now + interval * hour, sequenceNumber := seq + 1 }, seq + 1)
  | some previous =>
    if !correct then
      some ({ word, learned := previous.learned, reviewed := now,
              interval := 0, due := now, sequenceNumber := seq + 1 }, seq + 1)
    else if now < previous.due then
      some ({ word, learned := previous.learned, reviewed := now,
              interval := previous.interval,
              due := now + previous.interval * hour,
              sequenceNumber := seq + 1 }, seq + 1)
    else
      match nextInterval intervalStats ((now : ℤ) - (previous.reviewed : ℤ)) true with
      | none => none
      | some interval =>
        some ({ word, learned := previous.learned, reviewed := now,
                interval := interval.interval,
                due := now + interval.interval * hour,
                sequenceNumber := seq + 1 }, seq + 1)

/-- `lengthenInterval` (srs.ts): move the bucket `interval` up to the
floor-midpoint of `interval` and its successor; no-op when capped at the
maximum interval or already adjacent. -/
def lengthenInterval (s : List IntervalStatsValue)
    (interval : IntervalStatsValue) (nextIv : Option IntervalStatsValue) :
    List IntervalStatsValue :=
  match nextIv with
  | none => s
  | some nxt =>
    let mid := (interval.interval + nxt.interval) / 2
    if mid = interval.interval then s
    else
      let s1 := if mid ≠ nxt.interval then addStat ⟨mid, 0, 0⟩ s else s
      deleteStat s1 interval.interval

/-- `shortenInterval` (srs.ts): symmetric to `lengthenInterval`, toward the
predecessor bucket; the missing-predecessor branch (`console.assert`)
returns the store unchanged. -/
def shortenInterval (s : List IntervalStatsValue)
    (interval : IntervalStatsValue) (prevIv : Option IntervalStatsValue) :
    List IntervalStatsValue :=
  match prevIv with
  | none => s
  | some prv =>
    let mid := (interval.interval + prv.interval) / 2
    if mid = interval.interval then s
    else
      let s1 := if mid ≠ prv.interval then addStat ⟨mid, 0, 0⟩ s else s
      deleteStat s1 interval.interval

/-- `autoTune` (srs.ts): keyed by the previous interval; skipped for
intervals ≤ 24h; lengthens a too-easy bucket, shortens a too-hard one. -/
def autoTune (store : List IntervalStatsValue) (interval : ℕ) :
    List IntervalStatsValue :=
  if interval ≤ 24 then store
  else
    let prev := previousInterval store ((interval : ℤ) * (hour : ℤ)) false
    let next := nextInterval store ((interval : ℤ) * (hour : ℤ)) false
    match getStat store interval with
    | none => store
    | some value =>
      if isTooEasy value.correct value.incorrect then
        lengthenInterval store value next
      else if isTooHard value.correct value.incorrect then
        shortenInterval store value prev
      else store

/-- IndexedDB `store.get(word)` on a reviews store. -/
def getReview (s : List ReviewsValue) (word : String) : Option ReviewsValue :=
  s.find? (fun r => r.word == word)

/-- IndexedDB `store.put(r)` on a reviews store: replace the row with the
same word key, or insert (key position irrelevant to the claims; inserted
at the end). -/
def putReview (s : List ReviewsValue) (r : ReviewsValue) : List ReviewsValue :=
  if s.any (fun v => v.word == r.word) then
    s.map (fun v => if v.word == r.word then r else v)
  else s ++ [r]

/-- The client database stores touched by `saveReview`. -/
structure DB where
  acknowledgedReviews : List ReviewsValue
  unacknowledgedReviews : List ReviewsValue
  intervalStats : List IntervalStatsValue
  sequenceNumber : ℕ
deriving DecidableEq, Repr

/-- `saveReview` (srs.ts), one read-write transaction: read the previous
acknowledged review; if the word is new or not crammed
(`previous == null || previous.due <= now`) bump the interval-stats counter
at the previous interval (0 for a new word); compute the next review and
`put` it in `unacknowledged-reviews`; finally `autoTune` at the previous
interval.  `none` models an aborted transaction. -/
def saveReview (db : DB) (word : String) (correct : Bool) (now : ℕ) :
    Option DB :=
  let previous := getReview db.acknowledgedReviews word
  let stats1 :=
    match previous with
    | none => updateIntervalStats db.intervalStats 0 correct
    | some p =>
      if p.due ≤ now then updateIntervalStats db.intervalStats p.interval correct
      else db.intervalStats
  match nextReview stats1 db.sequenceNumber word previous correct now with
  | none => none
  | some (review, seq2) =>
    some { acknowledgedReviews := db.acknowledgedReviews,
           unacknowledgedReviews := putReview db.unacknowledgedReviews review,
           intervalStats :=
             autoTune stats1 (match previous with | none => 0 | some p => p.interval),
           sequenceNumber := seq2 }

/-- The interval ladder invariant of the data model: keys strictly
increasing along the store (hence unique), and the store nonempty. -/
def LadderInv (s : List IntervalStatsValue) : Prop :=
  s ≠ [] ∧ List.Chain' (fun a b => a.interval < b.interval) s

/-- Boolean check of the strictly-increasing key chain, used to decide
`LadderInv` on concrete stores. -/
def ladderSortedB : List IntervalStatsValue → Bool
  | [] => true
  | [_] => true
  | a :: b :: rest => decide (a.interval < b.interval) && ladderSortedB (b :: rest)

theorem ladderSortedB_iff (s : List IntervalStatsValue) :
    ladderSortedB s = true ↔
      List.Chain' (fun a b => a.interval < b.interval) s := by
  induction s with
  | nil => simp [ladderSortedB]
  | cons a rest ih =>
    cases rest with
    | nil => simp [ladderSortedB]
    | cons b rest2 =>
      rw [List.chain'_cons, ← ih]
      simp [ladderSortedB]

instance (s : List IntervalStatsValue) : Decidable (LadderInv s) :=
  decidable_of_iff (s ≠ [] ∧ ladderSortedB s = true)
    (by rw [ladderSortedB_iff]; exact Iff.rfl)

instance : IsTrans IntervalStatsValue (fun a b => a.interval < b.interval) :=
  ⟨fun _ _ _ => Nat.lt_trans⟩

/-- The two components of the ladder invariant, with sortedness in
`Pairwise` form. -/
theorem ladderInv_iff (s : List IntervalStatsValue) :
    LadderInv s ↔ s ≠ [] ∧ s.Pairwise (fun a b => a.interval < b.interval) := by
  unfold LadderInv
  rw [List.chain'_iff_pairwise]

theorem getStat_some {s : List IntervalStatsValue} {k : ℕ}
    {v : IntervalStatsValue} (h : getStat s k = some v) :
    v ∈ s ∧ v.interval = k := by
  refine ⟨List.mem_of_find?_eq_some h, ?_⟩
  have := List.find?_some h
  simpa using this

theorem getStat_deleteStat (s : List IntervalStatsValue) (k : ℕ) :
    getStat (deleteStat s k) k = none := by
  apply List.find?_eq_none.mpr
  intro x hx
  have hmem := List.mem_filter.mp hx
  simpa using hmem.2

theorem mem_deleteStat {s : List IntervalStatsValue} {k : ℕ}
    {x : IntervalStatsValue} (h : x ∈ deleteStat s k) :
    x ∈ s ∧ x.interval ≠ k := by
  have hmem := List.mem_filter.mp h
  exact ⟨hmem.1, by simpa using hmem.2⟩

theorem mem_addStat {v x : IntervalStatsValue} :
    ∀ {s : List IntervalStatsValue}, x ∈ addStat v s ↔ x ∈ s ∨ x = v := by
  intro s
  induction s with
  | nil => simp [addStat]
  | cons w rest ih =>
    simp only [addStat]
    split
    · simp only [List.mem_cons]
      tauto
    · simp only [List.mem_cons, ih]
      tauto

theorem addStat_pairwise {v : IntervalStatsValue}
    {s : List IntervalStatsValue}
    (hp : s.Pairwise (fun a b => a.interval < b.interval))
    (hfresh : ∀ u ∈ s, u.interval ≠ v.interval) :
    (addStat v s).Pairwise (fun a b => a.interval < b.interval) := by
  induction s with
  | nil => simp [addStat]
  | cons w rest ih =>
    rw [List.pairwise_cons] at hp
    obtain ⟨hw, hrest⟩ := hp
    simp only [addStat]
    split
    · rename_i h
      refine List.pairwise_cons.mpr ⟨?_, List.pairwise_cons.mpr ⟨hw, hrest⟩⟩
      intro u hu
      rcases List.mem_cons.mp hu with rfl | hu
      · exact h
      · exact Nat.lt_trans h (hw u hu)
    · rename_i h
      have hwv : w.interval < v.interval :=
        Nat.lt_of_le_of_ne (Nat.not_lt.mp h)
          (fun he => hfresh w (List.mem_cons_self w rest) he)
      refine List.pairwise_cons.mpr
        ⟨?_, ih hrest (fun u hu => hfresh u (List.mem_cons_of_mem _ hu))⟩
      intro u hu
      rcases mem_addStat.mp hu with hu | rfl
      · exact hw u hu
      · exact hwv

/-- `find?` over a key-sorted store returns the key-least satisfying row. -/
theorem find?_sorted_spec (p : IntervalStatsValue → Bool)
    {s : List IntervalStatsValue}
    (hp : s.Pairwise (fun a b => a.interval < b.interval))
    {v : IntervalStatsValue} (h : s.find? p = some v) :
    v ∈ s ∧ p v = true ∧ ∀ u ∈ s, p u = true → v.interval ≤ u.interval := by
  induction s with
  | nil => simp at h
  | cons w rest ih =>
    rw [List.pairwise_cons] at hp
    obtain ⟨hw, hrest⟩ := hp
    by_cases hpw : p w = true
    · rw [List.find?_cons_of_pos _ hpw] at h
      have hwv : w = v := by simpa using h
      subst hwv
      refine ⟨List.mem_cons_self w rest, hpw, ?_⟩
      intro u hu _
      rcases List.mem_cons.mp hu with rfl | hu
      · exact Nat.le_refl _
      · exact Nat.le_of_lt (hw u hu)
    · rw [List.find?_cons_of_neg _ hpw] at h
      obtain ⟨hv, hpv, hmin⟩ := ih hrest h
      refine ⟨List.mem_cons_of_mem _ hv, hpv, ?_⟩
      intro u hu hpu
      rcases List.mem_cons.mp hu with rfl | hu
      · exact absurd hpu hpw
      · exact hmin u hu hpu

/-- `getLast?` of a filtered key-sorted store returns the key-greatest
satisfying row. -/
theorem getLast?_filter_sorted_spec (p : IntervalStatsValue → Bool) :
    ∀ {s : List IntervalStatsValue},
      s.Pairwise (fun a b => a.interval < b.interval) →
      ∀ {v : IntervalStatsValue}, (s.filter p).getLast? = some v →
      v ∈ s ∧ p v = true ∧ ∀ u ∈ s, p u = true → u.interval ≤ v.interval := by
  intro s
  induction s with
  | nil => intro _ v h; simp at h
  | cons w rest ih =>
    intro hp v h
    rw [List.pairwise_cons] at hp
    obtain ⟨hw, hrest⟩ := hp
    by_cases hpw : p w = true
    · rw [List.filter_cons_of_pos hpw] at h
      cases hrf : rest.filter p with
      | nil =>
        rw [hrf] at h
        rw [List.getLast?_singleton] at h
        have hwv : w = v := Option.some_inj.mp h
        subst hwv
        refine ⟨List.mem_cons_self w rest, hpw, ?_⟩
        intro u hu hpu
        rcases List.mem_cons.mp hu with rfl | hu
        · exact Nat.le_refl _
        · exact absurd (List.mem_filter.mpr ⟨hu, hpu⟩) (by rw [hrf]; simp)
      | cons x xs =>
        rw [hrf, List.getLast?_cons_cons] at h
        rw [← hrf] at h
        obtain ⟨hv, hpv, hmax⟩ := ih hrest h
        refine ⟨List.mem_cons_of_mem _ hv, hpv, ?_⟩
        intro u hu hpu
        rcases List.mem_cons.mp hu with rfl | hu
        · exact Nat.le_of_lt (hw v hv)
        · exact hmax u hu hpu
    · rw [List.filter_cons_of_neg hpw] at h
      obtain ⟨hv, hpv, hmax⟩ := ih hrest h
      refine ⟨List.mem_cons_of_mem _ hv, hpv, ?_⟩
      intro u hu hpu
      rcases List.mem_cons.mp hu with rfl | hu
      · exact absurd hpu hpw
      · exact hmax u hu hpu

/-- Shape of an `autoTune` result: either the store is unchanged, or the
keyed bucket was deleted from a store that differs from the input at most
by one fresh zero-count bucket. -/
theorem autoTune_shape (s : List IntervalStatsValue) (k : ℕ) :
    autoTune s k = s ∨
      ∃ s0 : List IntervalStatsValue, autoTune s k = deleteStat s0 k ∧
        ∀ v ∈ s0, v ∈ s ∨ (v.correct = 0 ∧ v.incorrect = 0) := by
  unfold autoTune
  dsimp only
  split
  · exact Or.inl rfl
  · cases hg : getStat s k with
    | none => exact Or.inl rfl
    | some value =>
      obtain ⟨hvmem, hvk⟩ := getStat_some hg
      dsimp only
      split
      · unfold lengthenInterval
        cases nextInterval s ((k : ℤ) * (hour : ℤ)) false with
        | none => exact Or.inl rfl
        | some nxt =>
          dsimp only
          split
          · exact Or.inl rfl
          · refine Or.inr ⟨_, by rw [hvk], ?_⟩
            intro v hv
            split at hv
            · rcases mem_addStat.mp hv with hv | rfl
              · exact Or.inl hv
              · exact Or.inr ⟨rfl, rfl⟩
            · exact Or.inl hv
      · split
        · unfold shortenInterval
          cases previousInterval s ((k : ℤ) * (hour : ℤ)) false with
          | none => exact Or.inl rfl
          | some prv =>
            dsimp only
            split
            · exact Or.inl rfl
            · refine Or.inr ⟨_, by rw [hvk], ?_⟩
              intro v hv
              split at hv
              · rcases mem_addStat.mp hv with hv | rfl
                · exact Or.inl hv
                · exact Or.inr ⟨rfl, rfl⟩
              · exact Or.inl hv
        · exact Or.inl rfl

/-- If the keyed bucket is absent, `autoTune` is the identity. -/
theorem autoTune_of_getStat_none {s : List IntervalStatsValue} {k : ℕ}
    (h : getStat s k = none) : autoTune s k = s := by
  unfold autoTune
  split
  · rfl
  · rw [h]

/-- On a sorted store, `nextInterval` without `require` returns the least
bucket with key strictly above the query. -/
theorem nextInterval_false_some {s : List IntervalStatsValue} {q : ℤ}
    (hp : s.Pairwise (fun a b => a.interval < b.interval))
    {v : IntervalStatsValue} (h : nextInterval s q false = some v) :
    v ∈ s ∧ q < (v.interval : ℤ) * (hour : ℤ) ∧
      ∀ u ∈ s, q < (u.interval : ℤ) * (hour : ℤ) → v.interval ≤ u.interval := by
  unfold nextInterval at h
  cases hf : s.find? (fun v => decide (q < (v.interval : ℤ) * (hour : ℤ))) with
  | none => rw [hf] at h; simp at h
  | some w =>
    rw [hf] at h
    have hwv : w = v := by simpa using h
    subst hwv
    obtain ⟨hm, hpv, hmin⟩ := find?_sorted_spec _ hp hf
    exact ⟨hm, by simpa using hpv, fun u hu hq => hmin u hu (by simpa using hq)⟩

/-- On a sorted store, `nextInterval` with `require` returns either the
least bucket strictly above the query, or — when no bucket is strictly
above — the greatest bucket at or above it. -/
theorem nextInterval_true_some {s : List IntervalStatsValue} {q : ℤ}
    (hp : s.Pairwise (fun a b => a.interval < b.interval))
    {v : IntervalStatsValue} (h : nextInterval s q true = some v) :
    v ∈ s ∧
      ((q < (v.interval : ℤ) * (hour : ℤ) ∧
        ∀ u ∈ s, q < (u.interval : ℤ) * (hour : ℤ) → v.interval ≤ u.interval) ∨
       ((∀ u ∈ s, ¬ q < (u.interval : ℤ) * (hour : ℤ)) ∧
        q ≤ (v.interval : ℤ) * (hour : ℤ) ∧
        ∀ u ∈ s, q ≤ (u.interval : ℤ) * (hour : ℤ) → u.interval ≤ v.interval)) := by
  unfold nextInterval at h
  cases hf : s.find? (fun v => decide (q < (v.interval : ℤ) * (hour : ℤ))) with
  | some w =>
    rw [hf] at h
    have hwv : w = v := by simpa using h
    subst hwv
    obtain ⟨hm, hpv, hmin⟩ := find?_sorted_spec _ hp hf
    exact ⟨hm, Or.inl ⟨by simpa using hpv,
      fun u hu hq => hmin u hu (by simpa using hq)⟩⟩
  | none =>
    rw [hf] at h
    rw [if_pos rfl] at h
    obtain ⟨hm, hpv, hmax⟩ := getLast?_filter_sorted_spec _ hp h
    have hnone : ∀ u ∈ s, ¬ q < (u.interval : ℤ) * (hour : ℤ) := by
      intro u hu
      have := List.find?_eq_none.mp hf u hu
      simpa using this
    exact ⟨hm, Or.inr ⟨hnone, by simpa using hpv,
      fun u hu hq => hmax u hu (by simpa using hq)⟩⟩

/-- On a sorted store, `previousInterval` without `require` returns the
greatest bucket with key strictly below the query. -/
theorem previousInterval_false_some {s : List IntervalStatsValue} {q : ℤ}
    (hp : s.Pairwise (fun a b => a.interval < b.interval))
    {v : IntervalStatsValue} (h : previousInterval s q false = some v) :
    v ∈ s ∧ (v.interval : ℤ) * (hour : ℤ) < q ∧
      ∀ u ∈ s, (u.interval : ℤ) * (hour : ℤ) < q → u.interval ≤ v.interval := by
  unfold previousInterval at h
  cases hf : (s.filter (fun v => decide ((v.interval : ℤ) * (hour : ℤ) < q))).getLast? with
  | none => rw [hf] at h; simp at h
  | some w =>
    rw [hf] at h
    have hwv : w = v := by simpa using h
    subst hwv
    obtain ⟨hm, hpv, hmax⟩ := getLast?_filter_sorted_spec _ hp hf
    exact ⟨hm, by simpa using hpv, fun u hu hq => hmax u hu (by simpa using hq)⟩

/-- `lengthenInterval` with the true successor bucket keeps the ladder
invariant. -/
theorem lengthenInterval_inv {s : List IntervalStatsValue}
    {value nxt : IntervalStatsValue}
    (hp : s.Pairwise (fun a b => a.interval < b.interval))
    (hvmem : value ∈ s) (hnmem : nxt ∈ s)
    (hlt : value.interval < nxt.interval)
    (hmin : ∀ u ∈ s, value.interval < u.interval → nxt.interval ≤ u.interval) :
    LadderInv (lengthenInterval s value (some nxt)) := by
  unfold lengthenInterval
  dsimp only
  split
  · exact (ladderInv_iff s).mpr ⟨List.ne_nil_of_mem hvmem, hp⟩
  · rename_i hmid
    have hklt : value.interval < (value.interval + nxt.interval) / 2 := by omega
    have hltn : (value.interval + nxt.interval) / 2 < nxt.interval := by omega
    have hfresh : ∀ u ∈ s,
        u.interval ≠ (value.interval + nxt.interval) / 2 := by
      intro u hu he
      have h2 : value.interval < u.interval := by omega
      have h3 := hmin u hu h2
      omega
    rw [if_pos (by omega : (value.interval + nxt.interval) / 2 ≠ nxt.interval)]
    have hpadd := addStat_pairwise (v := ⟨(value.interval + nxt.interval) / 2, 0, 0⟩) hp hfresh
    refine (ladderInv_iff _).mpr ⟨?_, List.Pairwise.sublist (List.filter_sublist _) hpadd⟩
    have hmem2 : (IntervalStatsValue.mk ((value.interval + nxt.interval) / 2) 0 0) ∈
        deleteStat (addStat ⟨(value.interval + nxt.interval) / 2, 0, 0⟩ s) value.interval := by
      apply List.mem_filter.mpr
      refine ⟨mem_addStat.mpr (Or.inr rfl), ?_⟩
      simp only [bne_iff_ne, ne_eq, decide_eq_true_eq]
      omega
    exact List.ne_nil_of_mem hmem2

/-- `shortenInterval` with the true predecessor bucket keeps the ladder
invariant. -/
theorem shortenInterval_inv {s : List IntervalStatsValue}
    {value prv : IntervalStatsValue}
    (hp : s.Pairwise (fun a b => a.interval < b.interval))
    (hvmem : value ∈ s) (hpmem : prv ∈ s)
    (hlt : prv.interval < value.interval)
    (hmax : ∀ u ∈ s, u.interval < value.interval → u.interval ≤ prv.interval) :
    LadderInv (shortenInterval s value (some prv)) := by
  unfold shortenInterval
  dsimp only
  split
  · exact (ladderInv_iff s).mpr ⟨List.ne_nil_of_mem hvmem, hp⟩
  · rename_i hmid
    have hple : prv.interval ≤ (value.interval + prv.interval) / 2 := by omega
    have hltk : (value.interval + prv.interval) / 2 < value.interval := by omega
    by_cases h2 : (value.interval + prv.interval) / 2 ≠ prv.interval
    · rw [if_pos h2]
      have hfresh : ∀ u ∈ s,
          u.interval ≠ (value.interval + prv.interval) / 2 := by
        intro u hu he
        have h3 : u.interval < value.interval := by omega
        have h4 := hmax u hu h3
        omega
      have hpadd := addStat_pairwise (v := ⟨(value.interval + prv.interval) / 2, 0, 0⟩) hp hfresh
      refine (ladderInv_iff _).mpr ⟨?_, List.Pairwise.sublist (List.filter_sublist _) hpadd⟩
      have hmem2 : (IntervalStatsValue.mk ((value.interval + prv.interval) / 2) 0 0) ∈
          deleteStat (addStat ⟨(value.interval + prv.interval) / 2, 0, 0⟩ s) value.interval := by
        apply List.mem_filter.mpr
        refine ⟨mem_addStat.mpr (Or.inr rfl), ?_⟩
        simp only [bne_iff_ne, ne_eq, decide_eq_true_eq]
        omega
      exact List.ne_nil_of_mem hmem2
    · rw [if_neg h2]
      refine (ladderInv_iff _).mpr
        ⟨?_, List.Pairwise.sublist (List.filter_sublist _) hp⟩
      have hmem2 : prv ∈ deleteStat s value.interval := by
        apply List.mem_filter.mpr
        refine ⟨hpmem, ?_⟩
        simp only [bne_iff_ne, ne_eq, decide_eq_true_eq]
        omega
      exact List.ne_nil_of_mem hmem2

/-- C5: `autoTune` — including any `lengthenInterval`/`shortenInterval`
mutation it performs — preserves the interval ladder invariant: keys stay
strictly increasing (hence unique) and the bucket set stays nonempty. -/
theorem autoTune_preserves_ladder (s : List IntervalStatsValue) (k : ℕ)
    (h : LadderInv s) : LadderInv (autoTune s k) := by
  obtain ⟨hne, hp⟩ := (ladderInv_iff s).mp h
  unfold autoTune
  dsimp only
  split
  · exact h
  · cases hg : getStat s k with
    | none => exact h
    | some value =>
      obtain ⟨hvmem, hvk⟩ := getStat_some hg
      dsimp only
      split
      · cases hnx : nextInterval s ((k : ℤ) * (hour : ℤ)) false with
        | none => exact h
        | some nxt =>
          obtain ⟨hnmem, hqlt, hqmin⟩ := nextInterval_false_some hp hnx
          have hhour : (0 : ℤ) < (hour : ℤ) := by norm_num [hour]
          have hlt : value.interval < nxt.interval := by
            rw [hvk]
            have h2 := lt_of_mul_lt_mul_right hqlt hhour.le
            exact_mod_cast h2
          have hmin : ∀ u ∈ s, value.interval < u.interval →
              nxt.interval ≤ u.interval := by
            intro u hu hu2
            rw [hvk] at hu2
            refine hqmin u hu ?_
            have h3 : (k : ℤ) < (u.interval : ℤ) := by exact_mod_cast hu2
            exact mul_lt_mul_of_pos_right h3 hhour
          exact lengthenInterval_inv hp hvmem hnmem hlt hmin
      · split
        · cases hpv : previousInterval s ((k : ℤ) * (hour : ℤ)) false with
          | none => exact h
          | some prv =>
            obtain ⟨hpmem, hqlt, hqmax⟩ := previousInterval_false_some hp hpv
            have hhour : (0 : ℤ) < (hour : ℤ) := by norm_num [hour]
            have hlt : prv.interval < value.interval := by
              rw [hvk]
              have h2 := lt_of_mul_lt_mul_right hqlt hhour.le
              exact_mod_cast h2
            have hmax : ∀ u ∈ s, u.interval < value.interval →
                u.interval ≤ prv.interval := by
              intro u hu hu2
              rw [hvk] at hu2
              refine hqmax u hu ?_
              have h3 : (u.interval : ℤ) < (k : ℤ) := by exact_mod_cast hu2
              exact mul_lt_mul_of_pos_right h3 hhour
            exact shortenInterval_inv hp hvmem hpmem hlt hmax
        · exact h

/-- C10: invoking `autoTune` twice in a row with the same previous-interval
argument, with no counter update between the calls, performs no structural
change on the second invocation: the second call returns the first call's
store unchanged. -/
theorem autoTune_idempotent (s : List IntervalStatsValue) (k : ℕ) :
    autoTune (autoTune s k) k = autoTune s k := by
  rcases autoTune_shape s k with h | ⟨s0, h, _⟩
  · rw [h]
    exact h
  · rw [h]
    exact autoTune_of_getStat_none (getStat_deleteStat s0 k)

/-- `updateIntervalStats` only touches counters, so it preserves key
sortedness. -/
theorem updateIntervalStats_pairwise {s : List IntervalStatsValue} {k : ℕ}
    {c : Bool}
    (hp : s.Pairwise (fun a b => a.interval < b.interval)) :
    (updateIntervalStats s k c).Pairwise (fun a b => a.interval < b.interval) := by
  unfold updateIntervalStats
  cases getStat s k with
  | none => exact hp
  | some w =>
    refine List.Pairwise.map _ ?_ hp
    intro a b hab
    by_cases ha : a.interval == k <;> by_cases hb : b.interval == k <;>
      by_cases hc : c <;> simp [ha, hb, hc, hab]

/-- `put` of a review: looking the word up afterwards returns exactly the
stored review. -/
theorem getReview_putReview (s : List ReviewsValue) (r : ReviewsValue) :
    getReview (putReview s r) r.word = some r := by
  unfold getReview putReview
  by_cases hany : s.any (fun v => v.word == r.word)
  · rw [if_pos hany]
    induction s with
    | nil => simp at hany
    | cons w rest ih =>
      dsimp only [List.map_cons]
      by_cases hw : w.word == r.word
      · rw [if_pos hw]
        rw [List.find?_cons_of_pos _ (by simp)]
      · rw [if_neg hw]
        have hw2 : ¬ ((fun v : ReviewsValue => v.word == r.word) w = true) := hw
        have heq : List.find? (fun v : ReviewsValue => v.word == r.word)
            (w :: List.map (fun v => if (v.word == r.word) = true then r else v) rest)
            = List.find? (fun v : ReviewsValue => v.word == r.word)
              (List.map (fun v => if (v.word == r.word) = true then r else v) rest) :=
          List.find?_cons_of_neg _ hw2
        rw [heq]
        have hany2 : rest.any (fun v => v.word == r.word) := by
          simp only [List.any_cons, hw, Bool.false_or] at hany
          exact hany
        exact ih hany2
  · rw [if_neg hany]
    have hnone : s.find? (fun v => v.word == r.word) = none := by
      apply List.find?_eq_none.mpr
      intro x hx
      intro hcontra
      exact hany (List.any_of_mem hx hcontra)
    rw [List.find?_append, hnone]
    simp

/-- Modelled from the spec: `bucketAtOrAbove(hours)` — the smallest bucket
key ≥ `hours`; if none exists, the largest bucket key.  This is what the
spec says the scheduler consults; it is compared against the embedded
`nextInterval`-based code path. -/
def bucketAtOrAbove (s : List IntervalStatsValue) (hoursMs : ℤ) : Option ℕ :=
  match s.find? (fun v => decide (hoursMs ≤ (v.interval : ℤ) * (hour : ℤ))) with
  | some v => some v.interval
  | none => s.getLast?.map (fun v => v.interval)

/-- C1 amended: for a correct answer on an item with a previous review and
`now ≥ previous.due`, the stored interval is the smallest bucket key
**strictly greater** than the elapsed time (in hours, against the store
with the previous bucket's counter already bumped); when no bucket is
strictly above the elapsed time, the greatest bucket key at-or-above it is
used (so the save fails when the elapsed time also exceeds every bucket
key); the new due date is `now` plus the chosen interval. -/
theorem saveReview_not_crammed_interval
    (db : DB) (word : String) (now : ℕ) (prev : ReviewsValue) (db2 : DB)
    (hinv : LadderInv db.intervalStats)
    (hprev : getReview db.acknowledgedReviews word = some prev)
    (hdue : prev.due ≤ now)
    (hsave : saveReview db word true now = some db2) :
    ∃ v ∈ updateIntervalStats db.intervalStats prev.interval true,
      getReview db2.unacknowledgedReviews word = some
        { word := word, learned := prev.learned, reviewed := now,
          interval := v.interval, due := now + v.interval * hour,
          sequenceNumber := db.sequenceNumber + 1 } ∧
      ((((now : ℤ) - (prev.reviewed : ℤ)) < (v.interval : ℤ) * (hour : ℤ) ∧
        ∀ u ∈ updateIntervalStats db.intervalStats prev.interval true,
          ((now : ℤ) - (prev.reviewed : ℤ)) < (u.interval : ℤ) * (hour : ℤ) →
            v.interval ≤ u.interval) ∨
       ((∀ u ∈ updateIntervalStats db.intervalStats prev.interval true,
          ¬ ((now : ℤ) - (prev.reviewed : ℤ)) < (u.interval : ℤ) * (hour : ℤ)) ∧
        ((now : ℤ) - (prev.reviewed : ℤ)) ≤ (v.interval : ℤ) * (hour : ℤ) ∧
        ∀ u ∈ updateIntervalStats db.intervalStats prev.interval true,
          ((now : ℤ) - (prev.reviewed : ℤ)) ≤ (u.interval : ℤ) * (hour : ℤ) →
            u.interval ≤ v.interval)) := by
  obtain ⟨hne, hp⟩ := (ladderInv_iff _).mp hinv
  have hp1 : (updateIntervalStats db.intervalStats prev.interval true).Pairwise
      (fun a b => a.interval < b.interval) := updateIntervalStats_pairwise hp
  unfold saveReview at hsave
  rw [hprev] at hsave
  dsimp only at hsave
  rw [if_pos hdue] at hsave
  unfold nextReview at hsave
  dsimp only [Bool.not_true] at hsave
  rw [if_neg (by simp)] at hsave
  rw [if_neg (Nat.not_lt.mpr hdue)] at hsave
  cases hni : nextInterval (updateIntervalStats db.intervalStats prev.interval true)
      ((now : ℤ) - (prev.reviewed : ℤ)) true with
  | none =>
    rw [hni] at hsave
    simp at hsave
  | some v =>
    rw [hni] at hsave
    dsimp only at hsave
    have hdb2 := Option.some_inj.mp hsave
    obtain ⟨hvmem, hchar⟩ := nextInterval_true_some hp1 hni
    refine ⟨v, hvmem, ?_, ?_⟩
    · rw [← hdb2]
      exact getReview_putReview _ _
    · rcases hchar with h1 | h2
      · exact Or.inl h1
      · exact Or.inr h2

/-- Concrete store for C1: previous review at interval 24h reviewed at time
0 (due after 24h), over the initial ladder prefix {0, 24, 48, 96}. -/
def dbC1 : DB :=
  { acknowledgedReviews := [⟨"w", 0, 0, 24, 24 * hour, 1⟩],
    unacknowledgedReviews := [],
    intervalStats := [⟨0, 0, 0⟩, ⟨24, 0, 0⟩, ⟨48, 0, 0⟩, ⟨96, 0, 0⟩],
    sequenceNumber := 1 }

/-- C1 counterexample: a correct answer exactly 48 hours after the previous
review (on/after due).  The claim's `bucketAtOrAbove(48)` is bucket 48, but
the scheduler stores interval 96 — `nextInterval` uses an exclusive lower
bound, i.e. the smallest bucket **strictly** above the elapsed time. -/
theorem claim_C1_counterexample :
    (saveReview dbC1 "w" true (48 * hour)).map
        (fun d => (getReview d.unacknowledgedReviews "w").map
          (fun r => r.interval)) = some (some 96) ∧
    bucketAtOrAbove dbC1.intervalStats ((48 : ℤ) * (hour : ℤ)) = some 48 ∧
    (96 : ℕ) ≠ 48 := by
  refine ⟨by decide, by decide, by decide⟩

/-- The result state of the C1 amended witness run: a correct answer 47
hours after the previous review; bucket 24's correct counter is bumped, the
review moves to interval 48, due 47h + 48h. -/
def dbC1' : DB :=
  { acknowledgedReviews := [⟨"w", 0, 0, 24, 24 * hour, 1⟩],
    unacknowledgedReviews := [⟨"w", 0, 47 * hour, 48, 95 * hour, 2⟩],
    intervalStats := [⟨0, 0, 0⟩, ⟨24, 1, 0⟩, ⟨48, 0, 0⟩, ⟨96, 0, 0⟩],
    sequenceNumber := 2 }

theorem saveReview_not_crammed_interval_witness :
    LadderInv dbC1.intervalStats ∧
    ∃ v ∈ updateIntervalStats dbC1.intervalStats 24 true,
      getReview dbC1'.unacknowledgedReviews "w" = some
        { word := "w", learned := 0, reviewed := 47 * hour,
          interval := v.interval, due := 47 * hour + v.interval * hour,
          sequenceNumber := 2 } ∧
      ((((47 * hour : ℕ) : ℤ) - ((0 : ℕ) : ℤ) < (v.interval : ℤ) * (hour : ℤ) ∧
        ∀ u ∈ updateIntervalStats dbC1.intervalStats 24 true,
          ((47 * hour : ℕ) : ℤ) - ((0 : ℕ) : ℤ) < (u.interval : ℤ) * (hour : ℤ) →
            v.interval ≤ u.interval) ∨
       ((∀ u ∈ updateIntervalStats dbC1.intervalStats 24 true,
          ¬ ((47 * hour : ℕ) : ℤ) - ((0 : ℕ) : ℤ) < (u.interval : ℤ) * (hour : ℤ)) ∧
        ((47 * hour : ℕ) : ℤ) - ((0 : ℕ) : ℤ) ≤ (v.interval : ℤ) * (hour : ℤ) ∧
        ∀ u ∈ updateIntervalStats dbC1.intervalStats 24 true,
          ((47 * hour : ℕ) : ℤ) - ((0 : ℕ) : ℤ) ≤ (u.interval : ℤ) * (hour : ℤ) →
            u.interval ≤ v.interval)) :=
  ⟨by decide,
    saveReview_not_crammed_interval dbC1 "w" (47 * hour)
      ⟨"w", 0, 0, 24, 24 * hour, 1⟩ dbC1' (by decide) (by decide) (by decide)
      (by decide)⟩

/-- C2 amended: for a correct crammed answer (`now < previous.due`),
`saveReview` stores a review with the interval unchanged from
`previous.interval` and `due = now + previous.interval`, and increments no
interval-stats counter: every bucket of the resulting store is an original
bucket with its counters untouched or a fresh zero-count bucket moved by
the auto-tuner (which still runs, keyed by the previous interval). -/
theorem saveReview_crammed_no_increment
    (db : DB) (word : String) (now : ℕ) (prev : ReviewsValue) (db2 : DB)
    (hprev : getReview db.acknowledgedReviews word = some prev)
    (hcram : now < prev.due)
    (hsave : saveReview db word true now = some db2) :
    getReview db2.unacknowledgedReviews word = some
      { word := word, learned := prev.learned, reviewed := now,
        interval := prev.interval, due := now + prev.interval * hour,
        sequenceNumber := db.sequenceNumber + 1 } ∧
    ∀ v ∈ db2.intervalStats,
      v ∈ db.intervalStats ∨ (v.correct = 0 ∧ v.incorrect = 0) := by
  unfold saveReview at hsave
  rw [hprev] at hsave
  dsimp only at hsave
  rw [if_neg (Nat.not_le.mpr hcram)] at hsave
  unfold nextReview at hsave
  dsimp only [Bool.not_true] at hsave
  rw [if_neg (by simp)] at hsave
  rw [if_pos hcram] at hsave
  have hdb2 := Option.some_inj.mp hsave
  constructor
  · rw [← hdb2]
    exact getReview_putReview _ _
  · intro v hv
    rw [← hdb2] at hv
    dsimp only at hv
    rcases autoTune_shape db.intervalStats prev.interval with hshape | ⟨s0, hshape, hsub⟩
    · rw [hshape] at hv
      exact Or.inl hv
    · rw [hshape] at hv
      exact hsub v (mem_deleteStat hv).1

/-- Concrete store for the C2 counterexample: the acknowledged review sits
at interval 100h (due at 100h), and bucket 100 already holds 50 correct /
0 incorrect answers (e.g. installed by a sync snapshot), flanked by
buckets 0 and 200. -/
def dbC2 : DB :=
  { acknowledgedReviews := [⟨"w", 0, 0, 100, 100 * hour, 1⟩],
    unacknowledgedReviews := [],
    intervalStats := [⟨0, 0, 0⟩, ⟨100, 50, 0⟩, ⟨200, 0, 0⟩],
    sequenceNumber := 1 }

/-- C2 counterexample: a correct crammed answer at 50h (before the 100h
due date).  The claim says every interval-stats bucket's counters are left
unchanged, but the save deletes bucket 100 (its 50/0 counters with it) and
inserts a fresh zero-count bucket at 150 — the auto-tuner still runs on
crammed reviews. -/
theorem claim_C2_counterexample :
    (50 * hour : ℕ) < 100 * hour ∧
    getStat dbC2.intervalStats 100 = some ⟨100, 50, 0⟩ ∧
    (saveReview dbC2 "w" true (50 * hour)).map
        (fun d => getStat d.intervalStats 100) = some none ∧
    (saveReview dbC2 "w" true (50 * hour)).map
        (fun d => getStat d.intervalStats 150) = some (some ⟨150, 0, 0⟩) := by
  refine ⟨by decide, by decide, by decide, by decide⟩

/-- Concrete store for the C2 amended witness: crammed correct answer at
10h on a review due at 24h, over the two initial buckets (auto-tune
no-ops). -/
def dbC2w : DB :=
  { acknowledgedReviews := [⟨"w", 0, 0, 24, 24 * hour, 5⟩],
    unacknowledgedReviews := [],
    intervalStats := [⟨0, 0, 0⟩, ⟨24, 0, 0⟩],
    sequenceNumber := 5 }

/-- Result state of the C2 amended witness run. -/
def dbC2w' : DB :=
  { acknowledgedReviews := [⟨"w", 0, 0, 24, 24 * hour, 5⟩],
    unacknowledgedReviews := [⟨"w", 0, 10 * hour, 24, 34 * hour, 6⟩],
    intervalStats := [⟨0, 0, 0⟩, ⟨24, 0, 0⟩],
    sequenceNumber := 6 }

theorem saveReview_crammed_no_increment_witness :
    (10 * hour : ℕ) < 24 * hour ∧
    (getReview dbC2w'.unacknowledgedReviews "w" = some
      { word := "w", learned := 0, reviewed := 10 * hour, interval := 24,
        due := 10 * hour + 24 * hour, sequenceNumber := 6 } ∧
    ∀ v ∈ dbC2w'.intervalStats,
      v ∈ dbC2w.intervalStats ∨ (v.correct = 0 ∧ v.incorrect = 0)) :=
  ⟨by decide,
    saveReview_crammed_no_increment dbC2w "w" (10 * hour)
      ⟨"w", 0, 0, 24, 24 * hour, 5⟩ dbC2w' (by decide) (by decide) (by decide)⟩

theorem autoTune_preserves_ladder_witness :
    LadderInv ([⟨0, 0, 0⟩, ⟨48, 50, 0⟩, ⟨96, 0, 0⟩] : List IntervalStatsValue) ∧
    LadderInv (autoTune
      ([⟨0, 0, 0⟩, ⟨48, 50, 0⟩, ⟨96, 0, 0⟩] : List IntervalStatsValue) 48) :=
  ⟨by decide,
    autoTune_preserves_ladder [⟨0, 0, 0⟩, ⟨48, 50, 0⟩, ⟨96, 0, 0⟩] 48 (by decide)⟩

end Srs

/-! ## Placement estimator (`api/js/src/words.ts`)

The `difficulty-stats` store is walked by an ascending cursor, so it is
modelled as the list of its rows in ascending difficulty order; the
`unseen-words` store is represented by its `frequency-class` index, the
ascending list of frequency classes of unseen words. -/

namespace Words

/-- One `difficulty-stats` row: `{difficulty (key), correct, incorrect}`. -/
structure DifficultyStatsValue where
  difficulty : ℕ
  correct : ℕ
  incorrect : ℕ
deriving DecidableEq, Repr

/-- `easiestUnseen` (words.ts): ascending cursor over the frequency-class
index — the smallest frequency class among unseen words, or 0 when there
is none. -/
def easiestUnseen (unseenWords : List ℕ) : ℕ :=
  match unseenWords with
  | [] => 0
  | c :: _ => c

/-- The cursor loop of `placement` (words.ts), carrying the current
`level` and the last visited row's counters (`lastCorrect`,
`lastIncorrect`): stop at a too-hard class returning the level so far;
adopt the class and stop unless it is too easy; after the loop, bump the
level when the last visited counters read too easy. -/
def placementLoop (level lastCorrect lastIncorrect : ℕ) :
    List DifficultyStatsValue → ℕ
  | [] => if isTooEasy lastCorrect lastIncorrect then level + 1 else level
  | v :: rest =>
    if isTooHard v.correct v.incorrect then level
    else if !(isTooEasy v.correct v.incorrect) then v.difficulty
    else placementLoop v.difficulty v.correct v.incorrect rest

/-- `placement` (words.ts): start from the least unseen frequency class
and walk the difficulty stats. -/
def placement (difficultyStats : List DifficultyStatsValue)
    (unseenWords : List ℕ) : ℕ :=
  placementLoop (easiestUnseen unseenWords) 0 0 difficultyStats

/-- The walk as the claim describes it: at the first too-hard class return
the level adopted so far; otherwise adopt the class as the candidate level
and return it immediately unless it is too easy; when the walk exhausts
all classes and the last visited class was too easy (it always was, since
only too-easy classes are walked past), return that last level plus 1. -/
def specWalk (level : ℕ) : List DifficultyStatsValue → ℕ
  | [] => level
  | v :: rest =>
    if isTooHard v.correct v.incorrect then level
    else if !(isTooEasy v.correct v.incorrect) then v.difficulty
    else
      match rest with
      | [] => v.difficulty + 1
      | _ :: _ => specWalk v.difficulty rest

/-- The claim's placement procedure, assembled from its own words. -/
def placementSpec (difficultyStats : List DifficultyStatsValue)
    (unseenWords : List ℕ) : ℕ :=
  specWalk (easiestUnseen unseenWords) difficultyStats

theorem placementLoop_eq_of_easy :
    ∀ (l : List DifficultyStatsValue) (level c i : ℕ),
      isTooEasy c i = true →
      placementLoop level c i l =
        (match l with
         | [] => level + 1
         | _ :: _ => specWalk level l) := by
  intro l
  induction l with
  | nil =>
    intro level c i h
    simp [placementLoop, h]
  | cons v rest ih =>
    intro level c i h
    simp only [placementLoop, specWalk]
    split
    · rfl
    · split
      · rfl
      · rename_i h1 h2
        have h3 : isTooEasy v.correct v.incorrect = true := by
          simpa using h2
        rw [ih v.difficulty v.correct v.incorrect h3]

theorem placementLoop_eq_of_not_easy :
    ∀ (l : List DifficultyStatsValue) (level c i : ℕ),
      isTooEasy c i = false →
      placementLoop level c i l =
        (match l with
         | [] => level
         | _ :: _ => specWalk level l) := by
  intro l
  induction l with
  | nil =>
    intro level c i h
    simp [placementLoop, h]
  | cons v rest ih =>
    intro level c i h
    simp only [placementLoop, specWalk]
    split
    · rfl
    · split
      · rfl
      · rename_i h1 h2
        have h3 : isTooEasy v.correct v.incorrect = true := by
          simpa using h2
        rw [placementLoop_eq_of_easy rest v.difficulty v.correct v.incorrect h3]

/-- C6: `placement` starts from the frequency class of the least-rare
unseen word (the minimum of the unseen pool when that pool is listed in
ascending class order) and computes exactly the walk the claim describes:
stop before the first too-hard class, adopt and return the first class
that is not too easy, and past an exhausted all-too-easy walk return the
last level plus 1. -/
theorem placement_eq_placementSpec
    (difficultyStats : List DifficultyStatsValue) (unseenWords : List ℕ)
    (hunseen : unseenWords.Pairwise (· < ·)) :
    placement difficultyStats unseenWords =
      placementSpec difficultyStats unseenWords ∧
    ∀ c ∈ unseenWords, easiestUnseen unseenWords ≤ c := by
  constructor
  · unfold placement placementSpec
    have h00 : isTooEasy 0 0 = false := by decide
    rw [placementLoop_eq_of_not_easy difficultyStats _ 0 0 h00]
    cases difficultyStats with
    | nil => rfl
    | cons v rest => rfl
  · intro c hc
    cases unseenWords with
    | nil => simp at hc
    | cons a rest =>
      rcases List.mem_cons.mp hc with rfl | hc
      · exact Nat.le_refl _
      · have := List.pairwise_cons.mp hunseen
        exact Nat.le_of_lt (this.1 c hc)

theorem placement_eq_placementSpec_witness :
    ([2, 5] : List ℕ).Pairwise (· < ·) ∧
    (placement [⟨1, 0, 3⟩] [2, 5] = placementSpec [⟨1, 0, 3⟩] [2, 5] ∧
      ∀ c ∈ ([2, 5] : List ℕ), easiestUnseen [2, 5] ≤ c) :=
  ⟨by decide, placement_eq_placementSpec [⟨1, 0, 3⟩] [2, 5] (by decide)⟩

end Words

/-! ## Server-side sync handler (`api/sync.go`)

The per-user sync database is the review log (`review` table), plus the
two serialized histogram blobs in the `stat` table (rows `difficulty` and
`interval`, absent until written).  `handleSync` is embedded from the
point after authentication and JSON parsing. -/

namespace Api

/-- `ReviewSchema` (sync.go): one synced review row; times are unix
seconds. -/
structure ReviewSchema where
  word : String
  learned : ℤ
  reviewed : ℤ
  interval : ℤ
  sequenceNumber : ℤ
deriving DecidableEq, Repr

/-- `SyncSchema` (sync.go): the client's upload — its latest acknowledged
sequence number, its pending reviews, and its histogram blobs. -/
structure SyncSchema where
  latest : ℤ
  reviews : List ReviewSchema
  difficultyStats : String
  intervalStats : String
deriving DecidableEq, Repr

/-- The server-side sync database touched by `handleSync`. -/
structure SyncDB where
  reviews : List ReviewSchema
  statDifficulty : Option String
  statInterval : Option String
deriving DecidableEq, Repr

/-- Insertion step of the `ORDER BY sequence_number ASC` model. -/
def insertBySeq (r : ReviewSchema) :
    List ReviewSchema → List ReviewSchema
  | [] => [r]
  | x :: xs =>
    if r.sequenceNumber < x.sequenceNumber then r :: x :: xs
    else x :: insertBySeq r xs

/-- `ORDER BY sequence_number ASC`, modelled as insertion sort. -/
def orderBySeq : List ReviewSchema → List ReviewSchema
  | [] => []
  | x :: xs => insertBySeq x (orderBySeq xs)

/-- `moreRecent` (sync.go): all reviews with `sequence_number > ?`, in
ascending sequence-number order. -/
def moreRecent (db : SyncDB) (sequenceNumber : ℤ) : List ReviewSchema :=
  orderBySeq (db.reviews.filter (fun r => sequenceNumber < r.sequenceNumber))

/-- `getAllStats` (sync.go): two `QueryRow … Scan` calls over the `stat`
table.  The source scans **both** the difficulty row and the interval row
into the `difficulty` variable (`Scan(&difficulty)` twice — the second is
the slip this embeds faithfully); on `ErrNoRows` the first call sets
`difficulty = ""` and the second sets `interval = ""`.  The `interval`
variable is never assigned by any successful scan, so the returned
`intervalStats` is always the empty string. -/
def getAllStats (db : SyncDB) : String × String :=
  let difficulty :=
    match db.statDifficulty with
    | some d => d
    | none => ""
  let difficulty2 :=
    match db.statInterval with
    | some i => i
    | none => difficulty
  let interval := ""
  (difficulty2, interval)

/-- `saveReviews` (sync.go): `INSERT INTO review` each uploaded review
with exactly the values it carries — including its client-assigned
`sequence_number`. -/
def saveReviews (db : SyncDB) (reviews : List ReviewSchema) : SyncDB :=
  { db with reviews := db.reviews ++ reviews }

/-- The two responses `handleSync` can send. -/
inductive SyncResponse where
  | conflict (reviews : List ReviewSchema)
      (difficultyStats intervalStats : String)
  | ack
deriving DecidableEq, Repr

/-- The request-handling core of `handleSync` (sync.go) after
authentication and JSON parsing: fetch the reviews more recent than the
client's `latest`; if any exist, respond with them plus the stats
snapshots and store nothing; otherwise append the uploaded reviews and
respond with an empty acknowledgment (`sendJSON(w, map[string]any{})`). -/
def handleSync (db : SyncDB) (data : SyncSchema) : SyncDB × SyncResponse :=
  let reviews := moreRecent db data.latest
  if reviews.length > 0 then
    let stats := getAllStats db
    (db, SyncResponse.conflict reviews stats.1 stats.2)
  else
    (saveReviews db data.reviews, SyncResponse.ack)

/-- Server state for the C3 failing input: one logged review with sequence
number 5, and both stat blobs present ("D" for difficulty, "I" for
interval). -/
def dbC3 : SyncDB :=
  { reviews := [⟨"a", 0, 0, 24, 5⟩],
    statDifficulty := some "D",
    statInterval := some "I" }

/-- Client upload for the C3 failing input: nothing acknowledged yet, one
pending review. -/
def dataC3 : SyncSchema :=
  { latest := 0, reviews := [⟨"b", 0, 0, 24, 1⟩],
    difficultyStats := "", intervalStats := "" }

/-- C3, evaluated at the failing input: the conflict branch stores none of
the uploaded reviews and responds with the newer reviews, as the claim
says — but the stats it sends are (interval blob, "") instead of the
difficulty and interval snapshots ("D", "I"): `getAllStats` scans the
interval row into the `difficulty` variable and never fills `interval`. -/
theorem handleSync_conflict_stats_bug :
    handleSync dbC3 dataC3 =
      (dbC3, SyncResponse.conflict [⟨"a", 0, 0, 24, 5⟩] "I" "") ∧
    dbC3.statDifficulty = some "D" ∧
    dbC3.statInterval = some "I" ∧
    (("I", "") : String × String) ≠ ("D", "I") := by
  refine ⟨by decide, rfl, rfl, by decide⟩

/-- C4 amended: when the authoritative log holds no review newer than the
client's `latest`, `handleSync` appends every uploaded pending review
verbatim — keeping the client-assigned sequence numbers rather than
assigning its own — and responds with an empty acknowledgment. -/
theorem handleSync_no_conflict (db : SyncDB) (data : SyncSchema)
    (hnone : moreRecent db data.latest = []) :
    handleSync db data =
      ({ db with reviews := db.reviews ++ data.reviews },
        SyncResponse.ack) := by
  unfold handleSync
  rw [hnone]
  simp [saveReviews]

/-- Modelled from the spec: each log's `SequenceCounter` is monotonically
increasing and numbers are assigned at write time by the owning log, so
the numbers the authoritative side itself would assign to `k` accepted
reviews are the `k` consecutive successors of its own maximum sequence
number. -/
def maxSeq (db : SyncDB) : ℤ :=
  db.reviews.foldl (fun m r => max m r.sequenceNumber) 0

/-- Modelled from the spec: the server-assigned sequence numbers for `k`
appended reviews. -/
def serverAssignedSeqs (db : SyncDB) (k : ℕ) : List ℤ :=
  (List.range k).map (fun i => maxSeq db + i + 1)

/-- Empty server log for the C4 counterexample. -/
def dbC4 : SyncDB :=
  { reviews := [], statDifficulty := none, statInterval := none }

/-- Client upload for the C4 counterexample: one pending review carrying
client-assigned sequence number 7. -/
def dataC4 : SyncSchema :=
  { latest := 0, reviews := [⟨"b", 0, 0, 24, 7⟩],
    difficultyStats := "", intervalStats := "" }

/-- C4 counterexample: with an empty authoritative log, the handler
acknowledges and stores the uploaded review with its client-assigned
sequence number 7, whereas a log assigning its own numbers (spec
`SequenceCounter`) would store 1. -/
theorem handleSync_keeps_client_seqs :
    (handleSync dbC4 dataC4).2 = SyncResponse.ack ∧
    (handleSync dbC4 dataC4).1.reviews.map (fun r => r.sequenceNumber) = [7] ∧
    serverAssignedSeqs dbC4 1 = [1] ∧
    ([7] : List ℤ) ≠ [1] := by
  refine ⟨by decide, by decide, by decide, by decide⟩

theorem handleSync_no_conflict_witness :
    moreRecent dbC4 dataC4.latest = [] ∧
    handleSync dbC4 dataC4 =
      ({ dbC4 with reviews := dbC4.reviews ++ dataC4.reviews },
        SyncResponse.ack) :=
  ⟨by decide, handleSync_no_conflict dbC4 dataC4 (by decide)⟩

end Api

/-! ## Go review scheduler (`review_scheduler.UpdateReviewAtTx`)

Only the transaction body `UpdateReviewAtTx` (and its helper
`mostRecentReview`) is among the sources; the Go `nextReview`,
`updateIntervalStats` and `autoTune` it calls are not, and are modelled
from the spec (§4.3, §4.4).  Times are unix seconds; the `review` row
fetched by `mostRecentReview` is passed in as `previous`.  The interval
table is shared with the client embedding (the spec unifies the two
implementations). -/

namespace ReviewScheduler

/-- The Go `Review` row as used by the scheduler: `learned`, `reviewed`
(unix seconds) and `interval` (hours). -/
structure Review where
  learned : ℤ
  reviewed : ℤ
  interval : ℕ
deriving DecidableEq, Repr

/-- Modelled from the spec (§3): `dueAt = reviewedAt + intervalHours` (the
Go `Review.Due()` method is not among the sources). -/
def Review.due (r : Review) : ℤ := r.reviewed + (r.interval : ℤ) * 3600

/-- Modelled from the spec (§4.2): `bucketAtOrAbove(hours)` — smallest
bucket key ≥ `hours`, capped at the largest bucket.  The elapsed time is
in seconds and the comparison `hours ≤ key` is carried exactly as
`sec ≤ key * 3600`. -/
def bucketAtOrAboveSec (stats : List Srs.IntervalStatsValue) (sec : ℤ) :
    Option ℕ :=
  match stats.find? (fun v => decide (sec ≤ (v.interval : ℤ) * 3600)) with
  | some v => some v.interval
  | none => stats.getLast?.map (fun v => v.interval)

/-- Modelled from the spec (§4.4): the Go scheduler's `nextReview` (only
its caller `UpdateReviewAtTx` is among the sources).  It rejects with an
invalid-input error a `now` earlier than `previous.learnedAt`; otherwise:
no previous review → 24h/0h; incorrect → reset to 0; crammed
(`now < previous.due`) → interval unchanged; else
`bucketAtOrAbove(elapsed)`, failing only on an empty ladder. -/
def nextReview (stats : List Srs.IntervalStatsValue)
    (review : Option Review) (correct : Bool) (now : ℤ) :
    Except String Review :=
  match review with
  | none =>
    let interval : ℕ := if correct then 24 else 0
    Except.ok { learned := now, reviewed := now, interval := interval }
  | some previous =>
    if now < previous.learned then
      Except.error "invalid input: now is before the review was learned"
    else if !correct then
      Except.ok { learned := previous.learned, reviewed := now, interval := 0 }
    else if now < previous.due then
      Except.ok { learned := previous.learned, reviewed := now,
                  interval := previous.interval }
    else
      match bucketAtOrAboveSec stats (now - previous.reviewed) with
      | some k =>
        Except.ok { learned := previous.learned, reviewed := now, interval := k }
      | none => Except.error "empty interval ladder"

/-- `UpdateReviewAtTx` (review_scheduler): update the interval stats
unless the student crammed (`review == nil || !now.Before(review.Due())`),
compute the next review — propagating its error —, upsert it, and
auto-tune (per spec §4.3, keyed by the previous interval).  Returns the
upserted review and the tuned stats. -/
def UpdateReviewAtTx (stats : List Srs.IntervalStatsValue)
    (previous : Option Review) (correct : Bool) (now : ℤ) :
    Except String (Review × List Srs.IntervalStatsValue) :=
  let stats1 :=
    match previous with
    | none => Srs.updateIntervalStats stats 0 correct
    | some r =>
      if !(now < r.due) then Srs.updateIntervalStats stats r.interval correct
      else stats
  match nextReview stats1 previous correct now with
  | Except.error e => Except.error e
  | Except.ok next =>
    Except.ok (next,
      Srs.autoTune stats1 (match previous with | none => 0 | some r => r.interval))

theorem updateIntervalStats_ne_nil {s : List Srs.IntervalStatsValue}
    {k : ℕ} {c : Bool} (h : s ≠ []) : Srs.updateIntervalStats s k c ≠ [] := by
  unfold Srs.updateIntervalStats
  cases Srs.getStat s k with
  | none => exact h
  | some w =>
    intro hc
    exact h (List.map_eq_nil_iff.mp hc)

theorem bucketAtOrAboveSec_isSome {s : List Srs.IntervalStatsValue}
    (h : s ≠ []) (q : ℤ) : ∃ k, bucketAtOrAboveSec s q = some k := by
  unfold bucketAtOrAboveSec
  cases hf : s.find? (fun v => decide (q ≤ (v.interval : ℤ) * 3600)) with
  | some v => exact ⟨v.interval, rfl⟩
  | none =>
    cases hl : s.getLast? with
    | none => exact absurd (List.getLast?_eq_none_iff.mp hl) h
    | some v => exact ⟨v.interval, rfl⟩

/-- C7: saving a review fails exactly when `now` is earlier than the
previous review's learned date (the invalid-input error, surfaced through
`UpdateReviewAtTx`); on every other input — with the never-empty interval
ladder of the data model — scheduling never fails. -/
theorem updateReviewAtTx_error_iff (stats : List Srs.IntervalStatsValue)
    (previous : Option Review) (correct : Bool) (now : ℤ)
    (hne : stats ≠ []) :
    (∃ e, UpdateReviewAtTx stats previous correct now = Except.error e) ↔
      (∃ p, previous = some p ∧ now < p.learned) := by
  unfold UpdateReviewAtTx
  cases previous with
  | none =>
    dsimp only
    unfold nextReview
    simp
  | some p =>
    dsimp only
    by_cases hlt : now < p.learned
    · constructor
      · intro _
        exact ⟨p, rfl, hlt⟩
      · intro _
        refine ⟨"invalid input: now is before the review was learned", ?_⟩
        unfold nextReview
        dsimp only
        rw [if_pos hlt]
    · constructor
      · intro ⟨e, he⟩
        exfalso
        unfold nextReview at he
        dsimp only at he
        rw [if_neg hlt] at he
        by_cases hc : correct
        · rw [if_neg (by simp [hc])] at he
          by_cases hcram : now < p.due
          · rw [if_pos hcram] at he
            simp at he
          · rw [if_neg hcram] at he
            have hne1 : (if !(now < p.due) then
                Srs.updateIntervalStats stats p.interval correct
              else stats) ≠ [] := by
              split
              · exact updateIntervalStats_ne_nil hne
              · exact hne
            obtain ⟨k, hk⟩ := bucketAtOrAboveSec_isSome hne1 (now - p.reviewed)
            rw [hk] at he
            simp at he
        · rw [if_pos (by simp [hc])] at he
          simp at he
      · intro ⟨q, hq, hql⟩
        cases hq
        exact absurd hql hlt

theorem updateReviewAtTx_error_iff_witness :
    ([⟨0, 0, 0⟩] : List Srs.IntervalStatsValue) ≠ [] ∧
    (∃ e, UpdateReviewAtTx [⟨0, 0, 0⟩]
        (some ⟨100, 100, 24⟩) true 50 = Except.error e) :=
  ⟨by decide,
    (updateReviewAtTx_error_iff [⟨0, 0, 0⟩] (some ⟨100, 100, 24⟩) true 50
        (by decide)).mpr ⟨⟨100, 100, 24⟩, rfl, by decide⟩⟩

end ReviewScheduler

end Polycloze
